import Mathlib

/-!
# Verification of the Art-of-War document parser

Shallow embedding of `src/content-processing/process.py` (`process_document`).

Strings are modelled as `List Char`.  Python's regular-expression behaviour on
the three concrete patterns of the source is modelled by deterministic
scanners obtained by unfolding the leftmost-match backtracking semantics of
those patterns.  Whitespace (`\s`, `str.strip`) and digits (`\d`) are taken as
their ASCII subsets; the documents the source processes are ASCII.

The derivations of the scanners from the patterns are documented at each
definition, so they can be re-traced against the source:

* `re.search(r'<pre[^>]*>(.*?)</pre>', ..., re.DOTALL)` — `envelopeSearch`;
* `full_text.partition('THE END')` / `footer.split('---', 1)[-1]` —
  `mainContentOf`, `footerOf`, `copyrightOf`;
* `chapter_regex.finditer(main_content)` — `chapterMatches`;
* `re.findall(r'^\s*\d+\.\s+(.*?)(?=\n\s*\d+\.|\n\s*I|II|...|XIII\.\s|\Z)',
  content_block, re.MULTILINE | re.DOTALL)` — `lineFindall`.
-/

namespace AOW

/-- ASCII whitespace: the characters recognised by Python's `str.strip()` and
by `\s` on ASCII text (space, tab, newline, carriage return, vertical tab,
form feed). -/
def isSpace (c : Char) : Bool :=
  c == ' ' || c == '\t' || c == '\n' || c == '\r' ||
    c == Char.ofNat 11 || c == Char.ofNat 12

/-- ASCII digit, Python `\d` on ASCII text. -/
def isDigit (c : Char) : Bool := '0' ≤ c && c ≤ '9'

/-- Python `str.strip()`: remove leading and trailing whitespace. -/
def pyStrip (s : List Char) : List Char :=
  ((s.dropWhile isSpace).reverse.dropWhile isSpace).reverse

/-- The character of `s` at position `p`, if any. -/
def charAt (s : List Char) (p : Nat) : Option Char := (s.drop p).head?

/-- The literal `pat` occurs at position `p` of `s`. -/
def strPrefixAt (pat s : List Char) (p : Nat) : Bool := pat.isPrefixOf (s.drop p)

/-- Least index `k` with `start ≤ k < start + fuel` and `pred k = true`. -/
def firstIdxWhere (pred : Nat → Bool) : Nat → Nat → Option Nat
  | _, 0 => none
  | start, fuel + 1 =>
    if pred start then some start else firstIdxWhere pred (start + 1) fuel

/-- Greatest index `k` with `start ≤ k < start + fuel` and `pred k = true`. -/
def lastIdxWhere (pred : Nat → Bool) : Nat → Nat → Option Nat
  | _, 0 => none
  | start, fuel + 1 =>
    match lastIdxWhere pred (start + 1) fuel with
    | some k => some k
    | none => if pred start then some start else none

/-- Length of the maximal whitespace run at position `p` (what the greedy
`\s*` / `\s+` consume first). -/
def wsRunFrom (s : List Char) (p : Nat) : Nat :=
  ((s.drop p).takeWhile isSpace).length

/-- Length of the maximal digit run at position `p` (greedy `\d+`). -/
def digitRunFrom (s : List Char) (p : Nat) : Nat :=
  ((s.drop p).takeWhile isDigit).length

/-- The characters of `s` at positions `[a, b)`. -/
def listSlice (s : List Char) (a b : Nat) : List Char := (s.drop a).take (b - a)

/-- `^` under `re.MULTILINE`: `p` is the start of a line. -/
def lineStartB (s : List Char) (p : Nat) : Bool :=
  p == 0 || charAt s (p - 1) == some '\n'

/-! ## Envelope extractor

`re.search(r'<pre[^>]*>(.*?)</pre>', html_content, re.DOTALL)`.

At an attempt position `t` the literal `<pre` must occur; the greedy `[^>]*`
cannot pass a `'>'`, so `[^>]*>` consumes exactly up to and including the
first `'>'` at or after `t + 4` (shrinking `[^>]*` would put a non-`'>'`
character under the `>` atom, so backtracking it cannot help, and if no `'>'`
follows, the attempt at `t` fails).  The lazy `(.*?)` under `DOTALL` then
stops at the first occurrence of `</pre>` after that `'>'`; if there is none,
the attempt at `t` fails and the search resumes at `t + 1`.  `re.search`
returns the match of the leftmost succeeding attempt. -/

def openTag : List Char := "<pre".data

def closeTag : List Char := "</pre>".data

def envelopeSearchFrom (s : List Char) : Nat → Nat → Option (List Char)
  | _, 0 => none
  | t, fuel + 1 =>
    if strPrefixAt openTag s t then
      match firstIdxWhere (fun j => charAt s j == some '>') (t + 4)
          (s.length - (t + 4)) with
      | some j =>
        match firstIdxWhere (fun k => strPrefixAt closeTag s k) (j + 1)
            (s.length - j) with
        | some k => some (listSlice s (j + 1) k)
        | none => envelopeSearchFrom s (t + 1) fuel
      | none => envelopeSearchFrom s (t + 1) fuel
    else envelopeSearchFrom s (t + 1) fuel

/-- Group 1 of the first match of `<pre[^>]*>(.*?)</pre>` in `s`, if any. -/
def envelopeSearch (s : List Char) : Option (List Char) :=
  envelopeSearchFrom s 0 (s.length + 1)

/-! ## Document splitter

`main_content, _, footer = map(str.strip, full_text.partition('THE END'))`
and `copyright_info = footer.split('---', 1)[-1].strip()`. -/

def theEndMarker : List Char := "THE END".data

def hyphenSep : List Char := "---".data

/-- Index of the first occurrence of `pat` in `s`, if any. -/
def firstOccIdx (pat s : List Char) : Option Nat :=
  firstIdxWhere (fun k => strPrefixAt pat s k) 0 (s.length + 1)

/-- `full_text.partition('THE END')[0].strip()`. -/
def mainContentOf (fullText : List Char) : List Char :=
  match firstOccIdx theEndMarker fullText with
  | some k => pyStrip (fullText.take k)
  | none => pyStrip fullText

/-- `full_text.partition('THE END')[2].strip()`; when the marker is absent,
`partition` puts the whole string in the first component and `''` here. -/
def footerOf (fullText : List Char) : List Char :=
  match firstOccIdx theEndMarker fullText with
  | some k => pyStrip (fullText.drop (k + theEndMarker.length))
  | none => []

/-- `footer.split('---', 1)[-1].strip()`: everything after the first `---`
(trimmed), or the whole footer trimmed when `---` is absent. -/
def copyrightOf (footer : List Char) : List Char :=
  match firstOccIdx hyphenSep footer with
  | some k => pyStrip (footer.drop (k + hyphenSep.length))
  | none => pyStrip footer

/-! ## Chapter segmenter

```
chapter_regex = re.compile(
    r'^(I|II|III|IV|V|VI|VII|VIII|IX|X|XI|XII|XIII)\.\s+'
    r'(.*?)\n'
    r'((?:.|\n)*?)(?='
    r'^(?:I|II|III|IV|V|VI|VII|VIII|IX|X|XI|XII|XIII)\.|\Z)',
    re.MULTILINE)
```
used through `chapter_regex.finditer(main_content)`. -/

/-- The thirteen numeral alternatives, in the order the pattern lists them. -/
def romanNumerals : List (List Char) :=
  ["I".data, "II".data, "III".data, "IV".data, "V".data, "VI".data,
   "VII".data, "VIII".data, "IX".data, "X".data, "XI".data, "XII".data,
   "XIII".data]

/-- The alternation `(I|II|…|XIII)\.` at position `p`: Python tries the
branches left to right; a branch survives only if it is followed by `'.'`,
and because every branch is made of the letters `I`, `V`, `X`, at most one
branch can be followed by `'.'` at a given position. -/
def numeralDotAt (s : List Char) (p : Nat) : Option (List Char) :=
  romanNumerals.find? fun n => strPrefixAt (n ++ ['.']) s p

/-- The lookahead `(?=^(?:I|II|…|XIII)\.|\Z)` holds at position `r`.
Note the lookahead requires no whitespace after the period. -/
def chapterStopB (s : List Char) (r : Nat) : Bool :=
  r == s.length || (lineStartB s r && (numeralDotAt s r).isSome)

/-- One chapter match of `chapter_regex`. -/
structure CMatch where
  pos : Nat
  numeral : List Char
  title : List Char
  contentBlock : List Char
  endPos : Nat
deriving DecidableEq

/-- One attempt of `chapter_regex` at position `t` (with `^` already checked
by the caller).  Unfolding the backtracking order:

* `(I|…|XIII)\.` is `numeralDotAt`; let `pAfter` be the position after the
  period and `w = wsRunFrom s pAfter` the maximal whitespace run there
  (`\s+` needs `w ≥ 1` and tries longest first; note `\s` includes `'\n'`).
* `(.*?)\n` (no `DOTALL`, so `.` cannot cross a newline) succeeds on the
  remainder exactly when some `'\n'` lies at or after the start of the
  title; with the maximal `\s+`, the title runs from `pAfter + w` to the
  first newline `q` at or after `pAfter + w`.
* If no newline exists at or after `pAfter + w`, `\s+` backtracks: the only
  newlines still reachable are inside the whitespace run itself, and the
  longest `\s+` that leaves one is the prefix ending just before the run's
  last newline `nl`; this needs `pAfter < nl`, and gives an empty title with
  the content starting at `nl + 1`.  Otherwise the attempt fails.
* `((?:.|\n)*?)` with the lookahead stops at the first position `r` at or
  after the content start where `chapterStopB` holds (`\Z` makes `r`
  eventually exist); `finditer` resumes at the match end `r`. -/
def chapterMatchAt (s : List Char) (t : Nat) : Option CMatch :=
  match numeralDotAt s t with
  | none => none
  | some n =>
    if wsRunFrom s (t + n.length + 1) == 0 then none
    else
      match firstIdxWhere (fun q => charAt s q == some '\n')
          (t + n.length + 1 + wsRunFrom s (t + n.length + 1))
          (s.length - (t + n.length + 1 + wsRunFrom s (t + n.length + 1))) with
      | some q =>
        match firstIdxWhere (chapterStopB s) (q + 1) (s.length + 1 - (q + 1)) with
        | some r =>
          some ⟨t, n,
                listSlice s (t + n.length + 1 + wsRunFrom s (t + n.length + 1)) q,
                listSlice s (q + 1) r, r⟩
        | none => none
      | none =>
        match lastIdxWhere (fun q => charAt s q == some '\n') (t + n.length + 1)
            (wsRunFrom s (t + n.length + 1)) with
        | some nl =>
          if t + n.length + 1 < nl then
            match firstIdxWhere (chapterStopB s) (nl + 1) (s.length + 1 - (nl + 1)) with
            | some r => some ⟨t, n, [], listSlice s (nl + 1) r, r⟩
            | none => none
          else none
        | none => none

/-- `finditer` scanning loop: try every position left to right (`^` rules out
non-line-starts immediately), emit each match and resume at its end. -/
def chapterScanFrom (s : List Char) : Nat → Nat → List CMatch
  | _, 0 => []
  | t, fuel + 1 =>
    if s.length < t then []
    else if lineStartB s t then
      match chapterMatchAt s t with
      | some m => m :: chapterScanFrom s m.endPos fuel
      | none => chapterScanFrom s (t + 1) fuel
    else chapterScanFrom s (t + 1) fuel

/-- `list(chapter_regex.finditer(main_content))`. -/
def chapterMatches (s : List Char) : List CMatch :=
  chapterScanFrom s 0 (s.length + 2)

/-! ## Line extractor

```
lines = re.findall(
    r'^\s*\d+\.\s+(.*?)(?=\n\s*\d+\.|\n\s*I|II|III|IV|V|VI|VII|VIII|IX|X|XI|XII|XIII\.\s|\Z)',
    content_block, re.MULTILINE | re.DOTALL)
```

The alternation inside the lookahead binds loosest, so its branches are
`\n\s*\d+\.`, `\n\s*I`, then the bare literals `II`, `III`, `IV`, `V`, `VI`,
`VII`, `VIII`, `IX`, `X`, `XI`, `XII`, then `XIII\.\s`, then `\Z` — this is
the operator-precedence slip called out in the specification, reproduced
here faithfully. -/

/-- The lookahead of the line pattern holds at position `r`.  Inside
`\n\s*\d+\.` and `\n\s*I`, the greedy `\s*` and `\d+` are deterministic:
shrinking `\s*` puts a whitespace character under `\d` (resp. under `I`), and
shrinking `\d+` puts a digit under `\.`. -/
def lineStopB (s : List Char) (r : Nat) : Bool :=
  r == s.length
  || (charAt s r == some '\n'
      && (let w := wsRunFrom s (r + 1)
          let d := digitRunFrom s (r + 1 + w)
          decide (0 < d) && charAt s (r + 1 + w + d) == some '.'))
  || (charAt s r == some '\n' && charAt s (r + 1 + wsRunFrom s (r + 1)) == some 'I')
  || strPrefixAt "II".data s r || strPrefixAt "III".data s r
  || strPrefixAt "IV".data s r || strPrefixAt "V".data s r
  || strPrefixAt "VI".data s r || strPrefixAt "VII".data s r
  || strPrefixAt "VIII".data s r || strPrefixAt "IX".data s r
  || strPrefixAt "X".data s r || strPrefixAt "XI".data s r
  || strPrefixAt "XII".data s r
  || (strPrefixAt "XIII.".data s r && (charAt s (r + 5)).any isSpace)

/-- One attempt of the line pattern at position `t` (with `^` already checked
by the caller).  `\s*` takes the maximal whitespace run (its characters are
not digits, so backtracking it cannot satisfy `\d+`); `\d+` takes the maximal
digit run, which `\.` must follow; `\s+` after the period takes the maximal
whitespace run and is never backtracked because `(.*?)(?=…)` always succeeds
(`\Z` holds at the end of the block and `.` under `DOTALL` crosses
newlines).  The captured group runs to the first position where the
lookahead holds; `findall` resumes scanning at the match end. -/
def lineMatchAt (s : List Char) (t : Nat) : Option (List Char × Nat) :=
  let w0 := wsRunFrom s t
  let d := digitRunFrom s (t + w0)
  if d == 0 then none
  else if charAt s (t + w0 + d) == some '.' then
    let w1 := wsRunFrom s (t + w0 + d + 1)
    if w1 == 0 then none
    else
      let e0 := t + w0 + d + 1 + w1
      match firstIdxWhere (lineStopB s) e0 (s.length + 1 - e0) with
      | some r => some (listSlice s e0 r, r)
      | none => none
  else none

/-- `findall` scanning loop. -/
def lineFindallFrom (s : List Char) : Nat → Nat → List (List Char)
  | _, 0 => []
  | t, fuel + 1 =>
    if s.length < t then []
    else if lineStartB s t then
      match lineMatchAt s t with
      | some (entry, e) => entry :: lineFindallFrom s e fuel
      | none => lineFindallFrom s (t + 1) fuel
    else lineFindallFrom s (t + 1) fuel

/-- `re.findall(..., content_block, re.MULTILINE | re.DOTALL)`: the list of
captured groups (not yet stripped). -/
def lineFindall (s : List Char) : List (List Char) :=
  lineFindallFrom s 0 (s.length + 2)

/-! ## Assembly -/

/-- The fixed `meta` record; the Python keys are `name`, `by`,
`translated-by`. -/
structure MetaInfo where
  name : List Char
  by_ : List Char
  translatedBy : List Char
deriving DecidableEq

/-- One chapter record: keys `chapter_number`, `chapter_title`, `content`. -/
structure Chapter where
  chapter_number : List Char
  chapter_title : List Char
  content : List (List Char)
deriving DecidableEq

/-- The assembled `processed_data` value (JSON serialisation excluded). -/
structure Document where
  meta : MetaInfo
  chapters : List Chapter
  copyright : List Char
deriving DecidableEq

def artOfWarMeta : MetaInfo :=
  ⟨"Art of War".data, "Sun Tzu".data, "Lionel Giles".data⟩

/-- `{"chapter_number": roman_numeral, "chapter_title": title.strip(),
"content": [line.strip() for line in lines]}`. -/
def chapterOfMatch (m : CMatch) : Chapter :=
  ⟨m.numeral, pyStrip m.title, (lineFindall m.contentBlock).map pyStrip⟩

/-- The parsing pipeline applied to the stripped `<pre>` payload
(`full_text`). -/
def processFullText (fullText : List Char) : Document :=
  ⟨artOfWarMeta,
   (chapterMatches (mainContentOf fullText)).map chapterOfMatch,
   copyrightOf (footerOf fullText)⟩

/-- The two structural failures raised as `ValueError` by the source. -/
inductive ParseError where
  | EnvelopeNotFound
  | EmptyPayload
deriving DecidableEq

/-- `process_document`, file I/O excluded: from the raw file content to the
assembled document or a structural failure. -/
def process_document (input : List Char) : Except ParseError Document :=
  match envelopeSearch input with
  | none => .error .EnvelopeNotFound
  | some payload =>
    if pyStrip payload == [] then .error .EmptyPayload
    else .ok (processFullText (pyStrip payload))

/-! ## Specification-side definitions

These follow the specification's words, for comparison with the embedded
source; they are used only in claim statements. -/

/-- Following the spec's words: position `p` starts a line that begins with
one of the thirteen numeral labels immediately followed by a period and
whitespace. -/
def specNumeralLineB (s : List Char) (p : Nat) : Bool :=
  lineStartB s p && romanNumerals.any fun n =>
    strPrefixAt (n ++ ['.']) s p && (charAt s (p + n.length + 1)).any isSpace

/-- Following the spec's words: the number of lines of `s` matching the
numeral-start pattern (each such position is the start of a distinct line). -/
def specNumLines (s : List Char) : Nat :=
  ((List.range s.length).filter (specNumeralLineB s)).length

/-- Following the spec's words: an opening delimiter (`<pre`, later closed by
some `'>'`) together with a closing delimiter `</pre>` after it is present
somewhere in the text. -/
def specHasPairB (s : List Char) : Bool :=
  (List.range s.length).any fun i =>
    strPrefixAt openTag s i &&
    ((List.range s.length).any fun j =>
      decide (i + 4 ≤ j) && charAt s j == some '>' &&
      ((List.range s.length).any fun k =>
        decide (j + 1 ≤ k) && strPrefixAt closeTag s k))

/-- Following the spec's words on the round-trip property: a chapter's
content entries with numbered-entry markers re-inserted, one entry per
marker, numbered from 1. -/
def reinsertMarkers (entries : List (List Char)) : List Char :=
  entries.enum.flatMap fun pr => (Nat.repr (pr.1 + 1)).data ++ ('.' :: ' ' :: pr.2) ++ ['\n']

/-! ## Helper lemmas about the scanning primitives -/

theorem firstIdxWhere_eq_some {pred : Nat → Bool} :
    ∀ (fuel start k : Nat), firstIdxWhere pred start fuel = some k →
      pred k = true ∧ start ≤ k ∧ k < start + fuel ∧
        ∀ j, start ≤ j → j < k → pred j = false := by
  intro fuel
  induction fuel with
  | zero =>
    intro start k h
    simp [firstIdxWhere] at h
  | succ n ih =>
    intro start k h
    cases hp : pred start with
    | true =>
      simp [firstIdxWhere, hp] at h
      subst h
      exact ⟨hp, Nat.le_refl _, by omega,
        fun j h1 h2 => (Nat.lt_irrefl _ (Nat.lt_of_le_of_lt h1 h2)).elim⟩
    | false =>
      simp [firstIdxWhere, hp] at h
      obtain ⟨h1, h2, h3, h4⟩ := ih (start + 1) k h
      refine ⟨h1, by omega, by omega, ?_⟩
      intro j hj1 hj2
      rcases Nat.lt_or_ge j (start + 1) with hlt | hge
      · have hj : j = start := by omega
        rw [hj]; exact hp
      · exact h4 j hge hj2

theorem firstIdxWhere_eq_some_of {pred : Nat → Bool} :
    ∀ (fuel start k : Nat), start ≤ k → k < start + fuel → pred k = true →
      (∀ j, start ≤ j → j < k → pred j = false) →
      firstIdxWhere pred start fuel = some k := by
  intro fuel
  induction fuel with
  | zero =>
    intro start k h1 h2 _ _
    exact ((Nat.lt_irrefl k) (by omega)).elim
  | succ n ih =>
    intro start k h1 h2 h3 h4
    rcases Nat.eq_or_lt_of_le h1 with heq | hlt
    · subst heq
      simp [firstIdxWhere, h3]
    · have hps : pred start = false := h4 start (Nat.le_refl _) hlt
      simp [firstIdxWhere, hps]
      exact ih (start + 1) k hlt (by omega) h3 (fun j a b => h4 j (by omega) b)

theorem firstIdxWhere_eq_none {pred : Nat → Bool} :
    ∀ (fuel start : Nat), firstIdxWhere pred start fuel = none →
      ∀ j, start ≤ j → j < start + fuel → pred j = false := by
  intro fuel
  induction fuel with
  | zero =>
    intro start _ j h1 h2
    exact ((Nat.lt_irrefl j) (by omega)).elim
  | succ n ih =>
    intro start h j h1 h2
    cases hp : pred start with
    | true => simp [firstIdxWhere, hp] at h
    | false =>
      simp [firstIdxWhere, hp] at h
      rcases Nat.lt_or_ge j (start + 1) with hlt | hge
      · have hj : j = start := by omega
        rw [hj]; exact hp
      · exact ih (start + 1) h j hge (by omega)

theorem lastIdxWhere_eq_some {pred : Nat → Bool} :
    ∀ (fuel start k : Nat), lastIdxWhere pred start fuel = some k →
      pred k = true ∧ start ≤ k ∧ k < start + fuel := by
  intro fuel
  induction fuel with
  | zero =>
    intro start k h
    simp [lastIdxWhere] at h
  | succ n ih =>
    intro start k h
    simp only [lastIdxWhere] at h
    cases hrec : lastIdxWhere pred (start + 1) n with
    | some k' =>
      rw [hrec] at h
      have hk : k' = k := by simpa using h
      obtain ⟨a, b, c⟩ := ih (start + 1) k' hrec
      exact ⟨hk ▸ a, by omega, by omega⟩
    | none =>
      rw [hrec] at h
      cases hp : pred start with
      | true =>
        simp [hp] at h
        subst h
        exact ⟨hp, Nat.le_refl _, by omega⟩
      | false => simp [hp] at h

theorem charAt_eq_some_lt {s : List Char} {p : Nat} {c : Char}
    (h : charAt s p = some c) : p < s.length := by
  by_contra hle
  have hnil : s.drop p = [] := List.drop_eq_nil_of_le (by omega)
  rw [charAt, hnil] at h
  simp at h

theorem charAt_mem {s : List Char} {p : Nat} {c : Char}
    (h : charAt s p = some c) : c ∈ s := by
  have hmem : c ∈ s.drop p := by
    cases hd : s.drop p with
    | nil => rw [charAt, hd] at h; simp at h
    | cons a l =>
      rw [charAt, hd] at h
      simp at h
      subst h
      exact List.mem_cons_self _ _
  exact List.drop_subset _ _ hmem

theorem strPrefixAt_iff {pat s : List Char} {p : Nat} :
    strPrefixAt pat s p = true ↔ ∃ t, pat ++ t = s.drop p := by
  rw [strPrefixAt]
  generalize s.drop p = l
  induction pat generalizing l with
  | nil => simp [List.isPrefixOf]
  | cons a l1 ih =>
    cases l with
    | nil => simp [List.isPrefixOf]
    | cons b l2 =>
      simp only [List.isPrefixOf, Bool.and_eq_true, beq_iff_eq, ih,
        List.cons_append, List.cons.injEq]
      constructor
      · rintro ⟨rfl, t, rfl⟩
        exact ⟨t, rfl, rfl⟩
      · rintro ⟨t, rfl, rfl⟩
        exact ⟨rfl, t, rfl⟩

theorem strPrefixAt_lt {pat s : List Char} {p : Nat}
    (h : strPrefixAt pat s p = true) (hne : pat ≠ []) : p < s.length := by
  obtain ⟨t, ht⟩ := strPrefixAt_iff.mp h
  by_contra hle
  have hnil : s.drop p = [] := List.drop_eq_nil_of_le (by omega)
  rw [hnil] at ht
  exact hne (List.append_eq_nil.mp ht).1

theorem wsRunFrom_pos {s : List Char} {p : Nat} (h : 0 < wsRunFrom s p) :
    ∃ c, charAt s p = some c ∧ isSpace c = true := by
  rw [wsRunFrom] at h
  cases hd : s.drop p with
  | nil => rw [hd] at h; simp at h
  | cons a l =>
    rw [hd] at h
    rw [charAt, hd]
    cases hsp : isSpace a with
    | false => rw [List.takeWhile_cons, hsp] at h; simp at h
    | true => exact ⟨a, rfl, hsp⟩

theorem numeralDotAt_eq_some {s : List Char} {p : Nat} {n : List Char}
    (h : numeralDotAt s p = some n) :
    n ∈ romanNumerals ∧ strPrefixAt (n ++ ['.']) s p = true := by
  rw [numeralDotAt] at h
  refine ⟨List.mem_of_find?_eq_some h, ?_⟩
  have h2 := List.find?_some h
  simpa using h2

theorem numeralDotAt_lt {s : List Char} {p : Nat} {n : List Char}
    (h : numeralDotAt s p = some n) : p < s.length := by
  obtain ⟨_, hpre⟩ := numeralDotAt_eq_some h
  exact strPrefixAt_lt hpre (by simp)

theorem roman_length_pos {n : List Char} (h : n ∈ romanNumerals) : 0 < n.length := by
  fin_cases h <;> decide

/-! ## Invariants of the chapter scanner -/

theorem chapterStopB_le {s : List Char} {r : Nat} (h : chapterStopB s r = true) :
    r ≤ s.length := by
  rw [chapterStopB] at h
  simp only [Bool.or_eq_true, Bool.and_eq_true, beq_iff_eq] at h
  rcases h with h1 | ⟨_, hsome⟩
  · omega
  · obtain ⟨n, hn⟩ := Option.isSome_iff_exists.mp hsome
    exact Nat.le_of_lt (numeralDotAt_lt hn)

theorem chapterMatchAt_some_props {s : List Char} {t : Nat} {m : CMatch}
    (h : chapterMatchAt s t = some m) :
    m.pos = t ∧ numeralDotAt s t = some m.numeral ∧
      0 < wsRunFrom s (t + m.numeral.length + 1) ∧
      t < m.endPos ∧ m.endPos ≤ s.length := by
  rw [chapterMatchAt] at h
  split at h
  · cases h
  next n hn =>
    split at h
    · cases h
    next hw =>
      have hwpos : 0 < wsRunFrom s (t + n.length + 1) := by
        have hne : wsRunFrom s (t + n.length + 1) ≠ 0 := by simpa using hw
        omega
      split at h
      next q hq =>
        split at h
        next r hr =>
          injection h with h
          subst h
          obtain ⟨_, hq1, _, _⟩ := firstIdxWhere_eq_some _ _ _ hq
          obtain ⟨hrp, hr1, _, _⟩ := firstIdxWhere_eq_some _ _ _ hr
          refine ⟨rfl, hn, hwpos, ?_, ?_⟩
          · show t < r
            omega
          · show r ≤ s.length
            exact chapterStopB_le hrp
        next => cases h
      next hq =>
        split at h
        next nl hl =>
          split at h
          next hlt =>
            split at h
            next r hr =>
              injection h with h
              subst h
              obtain ⟨hrp, hr1, _, _⟩ := firstIdxWhere_eq_some _ _ _ hr
              refine ⟨rfl, hn, hwpos, ?_, ?_⟩
              · show t < r
                omega
              · show r ≤ s.length
                exact chapterStopB_le hrp
            next => cases h
          next => cases h
        next => cases h

/-- The content block of a chapter match is exactly the slice from its start
to the match end, and the match end is the first position at or after that
start where the content lookahead holds — a line start carrying a numeral
label immediately followed by a period (no whitespace required there), or
the end of the body. -/
theorem chapterMatchAt_content {s : List Char} {t : Nat} {m : CMatch}
    (h : chapterMatchAt s t = some m) :
    ∃ cStart, m.contentBlock = listSlice s cStart m.endPos
      ∧ chapterStopB s m.endPos = true
      ∧ ∀ r, cStart ≤ r → r < m.endPos → chapterStopB s r = false := by
  rw [chapterMatchAt] at h
  split at h
  · cases h
  next n hn =>
    split at h
    · cases h
    next hw =>
      split at h
      next q hq =>
        split at h
        next r hr =>
          injection h with h
          subst h
          obtain ⟨hrp, _, _, hmin⟩ := firstIdxWhere_eq_some _ _ _ hr
          exact ⟨q + 1, rfl, hrp, hmin⟩
        next => cases h
      next hq =>
        split at h
        next nl hl =>
          split at h
          next hlt =>
            split at h
            next r hr =>
              injection h with h
              subst h
              obtain ⟨hrp, _, _, hmin⟩ := firstIdxWhere_eq_some _ _ _ hr
              exact ⟨nl + 1, rfl, hrp, hmin⟩
            next => cases h
          next => cases h
        next => cases h

theorem chapterScanFrom_inv {s : List Char} :
    ∀ (fuel t : Nat) {m : CMatch}, m ∈ chapterScanFrom s t fuel →
      t ≤ m.pos ∧ lineStartB s m.pos = true ∧ chapterMatchAt s m.pos = some m := by
  intro fuel
  induction fuel with
  | zero =>
    intro t m h
    simp [chapterScanFrom] at h
  | succ n ih =>
    intro t m h
    rw [chapterScanFrom] at h
    by_cases hlen : s.length < t
    · rw [if_pos hlen] at h; cases h
    · rw [if_neg hlen] at h
      by_cases hls : lineStartB s t = true
      · rw [if_pos hls] at h
        cases hm : chapterMatchAt s t with
        | some m0 =>
          rw [hm] at h
          rcases List.mem_cons.mp h with heq | hmem
          · subst heq
            have hp := chapterMatchAt_some_props hm
            rw [hp.1]
            exact ⟨Nat.le_refl _, hls, hp.1 ▸ hm⟩
          · obtain ⟨h1, h2, h3⟩ := ih m0.endPos hmem
            have hp := chapterMatchAt_some_props hm
            exact ⟨by omega, h2, h3⟩
        | none =>
          rw [hm] at h
          obtain ⟨h1, h2, h3⟩ := ih (t + 1) h
          exact ⟨by omega, h2, h3⟩
      · rw [if_neg hls] at h
        obtain ⟨h1, h2, h3⟩ := ih (t + 1) h
        exact ⟨by omega, h2, h3⟩

theorem chapterScanFrom_sorted {s : List Char} :
    ∀ (fuel t : Nat), ((chapterScanFrom s t fuel).map CMatch.pos).Pairwise (· < ·) := by
  intro fuel
  induction fuel with
  | zero =>
    intro t
    simp [chapterScanFrom]
  | succ n ih =>
    intro t
    rw [chapterScanFrom]
    by_cases hlen : s.length < t
    · rw [if_pos hlen]; exact List.Pairwise.nil
    · rw [if_neg hlen]
      by_cases hls : lineStartB s t = true
      · rw [if_pos hls]
        cases hm : chapterMatchAt s t with
        | some m0 =>
          simp only [List.map_cons]
          refine List.Pairwise.cons ?_ (ih m0.endPos)
          intro p hp
          obtain ⟨m', hm', hpe⟩ := List.mem_map.mp hp
          obtain ⟨hle, _, _⟩ := chapterScanFrom_inv n m0.endPos hm'
          have hp0 := chapterMatchAt_some_props hm
          rw [← hpe]
          omega
        | none => exact ih (t + 1)
      · rw [if_neg hls]
        exact ih (t + 1)

/-- A strictly increasing list of positions below `len` that all satisfy a
predicate is no longer than the filtered range counting those positions. -/
theorem length_le_count_of_pairwise {l : List Nat} {pred : Nat → Bool} {len : Nat}
    (hp : l.Pairwise (· < ·)) (hall : ∀ x ∈ l, x < len ∧ pred x = true) :
    l.length ≤ ((List.range len).filter pred).length := by
  have hnd : l.Nodup := hp.imp (fun h => Nat.ne_of_lt h)
  have hnd2 : ((List.range len).filter pred).Nodup := (List.nodup_range len).filter pred
  rw [← List.toFinset_card_of_nodup hnd, ← List.toFinset_card_of_nodup hnd2]
  apply Finset.card_le_card
  intro x hx
  rw [List.mem_toFinset] at hx ⊢
  rw [List.mem_filter]
  obtain ⟨h1, h2⟩ := hall x hx
  exact ⟨List.mem_range.mpr h1, h2⟩

theorem chapterMatchAt_none_of_no_newline {s : List Char}
    (hnl : '\n' ∉ s) (t : Nat) : chapterMatchAt s t = none := by
  rw [chapterMatchAt]
  split
  · rfl
  next n hn =>
    split
    · rfl
    next hw =>
      split
      next q hq =>
        exfalso
        have h1 := (firstIdxWhere_eq_some _ _ _ hq).1
        rw [beq_iff_eq] at h1
        exact hnl (charAt_mem h1)
      next hq =>
        split
        next nl hl =>
          exfalso
          have h1 := (lastIdxWhere_eq_some _ _ _ hl).1
          rw [beq_iff_eq] at h1
          exact hnl (charAt_mem h1)
        next => rfl

theorem chapterScanFrom_of_no_newline {s : List Char} (hnl : '\n' ∉ s) :
    ∀ (fuel t : Nat), chapterScanFrom s t fuel = [] := by
  intro fuel
  induction fuel with
  | zero =>
    intro t
    rfl
  | succ n ih =>
    intro t
    rw [chapterScanFrom]
    by_cases hlen : s.length < t
    · rw [if_pos hlen]
    · rw [if_neg hlen]
      by_cases hls : lineStartB s t = true
      · rw [if_pos hls, chapterMatchAt_none_of_no_newline hnl t]
        exact ih (t + 1)
      · rw [if_neg hls]
        exact ih (t + 1)

/-- Soundness of the envelope search: whenever the embedded `re.search`
returns a payload, the delimiter pair is present in the input. -/
theorem envelopeSearchFrom_sound {s : List Char} :
    ∀ (fuel t : Nat) {p : List Char}, envelopeSearchFrom s t fuel = some p →
      specHasPairB s = true := by
  intro fuel
  induction fuel with
  | zero =>
    intro t p h
    simp [envelopeSearchFrom] at h
  | succ n ih =>
    intro t p h
    rw [envelopeSearchFrom] at h
    split at h
    next ho =>
      split at h
      next j hj =>
        split at h
        next k hk =>
          obtain ⟨hjp, hj1, _, _⟩ := firstIdxWhere_eq_some _ _ _ hj
          obtain ⟨hkp, hk1, _, _⟩ := firstIdxWhere_eq_some _ _ _ hk
          rw [beq_iff_eq] at hjp
          have hti : t < s.length := strPrefixAt_lt ho (by decide)
          have hjl : j < s.length := charAt_eq_some_lt hjp
          have hkl : k < s.length := strPrefixAt_lt hkp (by decide)
          rw [specHasPairB, List.any_eq_true]
          refine ⟨t, List.mem_range.mpr hti, ?_⟩
          rw [Bool.and_eq_true]
          refine ⟨ho, ?_⟩
          rw [List.any_eq_true]
          refine ⟨j, List.mem_range.mpr hjl, ?_⟩
          simp only [Bool.and_eq_true, beq_iff_eq, decide_eq_true_eq]
          refine ⟨⟨hj1, hjp⟩, ?_⟩
          rw [List.any_eq_true]
          refine ⟨k, List.mem_range.mpr hkl, ?_⟩
          simp only [Bool.and_eq_true, decide_eq_true_eq]
          exact ⟨hk1, hkp⟩
        next hk =>
          exact ih (t + 1) h
      next hj =>
        exact ih (t + 1) h
    next ho =>
      exact ih (t + 1) h

/-! ## Claims -/

/-- C1 — code bug.  The Line Extractor is claimed to stop a numbered entry
only at the next numbered-entry marker or the end of the block.  The flawed
lookahead alternation in the source also stops at a bare `V` (and at `II`,
`X`, …) anywhere in the text: on the block `" 1. a V b"` the code yields the
single entry `"a"` instead of `"a V b"`. -/
theorem c1_line_extractor_stop_bug :
    (lineFindall " 1. a V b".data).map pyStrip = ["a".data]
  ∧ (lineFindall " 1. a V b".data).map pyStrip ≠ ["a V b".data] := by
  constructor
  · decide
  · decide

/-- C2 — amended.  Every emitted chapter match sits at the start of a line
carrying one of the thirteen numeral labels followed by a period and
whitespace, and no other numeral (e.g. `XIV`) is recognised; but not every
such line starts a chapter, and the title is not always the remainder of the
marker line: the greedy `\s+` after the period can cross the newline when the
marker line's remainder is blank, drawing the title from the following line
(possibly suppressing a chapter that starts there), and an all-blank
remainder at the end of the body gives an empty title.  The content block is
the slice from the content start to the first position where `chapterStopB`
holds — a line start carrying a numeral label immediately followed by a
period (whitespace after the period is NOT required there, so such a line
ends the block even when it does not itself start a chapter), or the end of
the body, whichever comes first; this is proved universally, and the
`II.x` equation exhibits a block ended by a line that starts no chapter.
The remaining concrete equations exhibit the amended title rule; the last
one is the ordinary same-line-title case. -/
theorem c2_chapter_recognition :
    (∀ (s : List Char) (m : CMatch), m ∈ chapterMatches s →
        lineStartB s m.pos = true ∧ numeralDotAt s m.pos = some m.numeral
        ∧ m.numeral ∈ romanNumerals
        ∧ 0 < wsRunFrom s (m.pos + m.numeral.length + 1))
  ∧ (∀ (s : List Char) (m : CMatch), m ∈ chapterMatches s →
        ∃ cStart, m.contentBlock = listSlice s cStart m.endPos
          ∧ chapterStopB s m.endPos = true
          ∧ ∀ r, cStart ≤ r → r < m.endPos → chapterStopB s r = false)
  ∧ chapterMatches "XIV. A\nx\n".data = []
  ∧ (chapterMatches "I. T\n 1. a\nII.x\n 2. b\n".data).map
      (fun m => (m.numeral, m.title, m.contentBlock))
      = [("I".data, "T".data, " 1. a\n".data)]
  ∧ (chapterMatches "I. \nII. B\n 1. z\n".data).map
      (fun m => (m.numeral, m.title, m.contentBlock))
      = [("I".data, "II. B".data, " 1. z\n".data)]
  ∧ (chapterMatches "I. \nII. B".data).map
      (fun m => (m.numeral, m.title, m.contentBlock))
      = [("I".data, [], [])]
  ∧ (chapterMatches "I. A\nc\nII. B\nd\n".data).map
      (fun m => (m.numeral, m.title, m.contentBlock))
      = [("I".data, "A".data, "c\n".data), ("II".data, "B".data, "d\n".data)] := by
  refine ⟨?_, ?_, by decide, by decide, by decide, by decide, by decide⟩
  · intro s m hm
    obtain ⟨_, hls, hmm⟩ := chapterScanFrom_inv _ _ hm
    have hp := chapterMatchAt_some_props hmm
    obtain ⟨hmem, _⟩ := numeralDotAt_eq_some hp.2.1
    exact ⟨hls, hp.2.1, hmem, hp.2.2.1⟩
  · intro s m hm
    obtain ⟨_, _, hmm⟩ := chapterScanFrom_inv _ _ hm
    exact chapterMatchAt_content hmm

/-- C2 — counterexample.  On the body `"I. \nII. B\n 1. z\n"` the claim
predicts two chapters, the first with the empty title (the trimmed remainder
of its marker line) and the second with title `"B"`; the code emits a single
chapter whose title is the whole next line `"II. B"`. -/
theorem c2_title_counterexample :
    (chapterMatches "I. \nII. B\n 1. z\n".data).map
        (fun m => (m.numeral, pyStrip m.title))
      = [("I".data, "II. B".data)]
  ∧ ¬ ((chapterMatches "I. \nII. B\n 1. z\n".data).map
        (fun m => (m.numeral, pyStrip m.title))
      = [("I".data, []), ("II".data, "B".data)]) := by
  constructor
  · decide
  · decide

/-- C2 — witness for the two universal parts of `c2_chapter_recognition`,
at the single-chapter body `"I. A\n"` (its one match is
`⟨0, "I", "A", [], 5⟩`). -/
theorem c2_witness :
    (lineStartB "I. A\n".data 0 = true
      ∧ numeralDotAt "I. A\n".data 0 = some "I".data
      ∧ "I".data ∈ romanNumerals
      ∧ 0 < wsRunFrom "I. A\n".data (0 + "I".data.length + 1))
  ∧ (∃ cStart, ([] : List Char) = listSlice "I. A\n".data cStart 5
      ∧ chapterStopB "I. A\n".data 5 = true
      ∧ ∀ r, cStart ≤ r → r < 5 → chapterStopB "I. A\n".data r = false) :=
  ⟨c2_chapter_recognition.1 "I. A\n".data ⟨0, "I".data, "A".data, [], 5⟩ (by decide),
   c2_chapter_recognition.2.1 "I. A\n".data ⟨0, "I".data, "A".data, [], 5⟩ (by decide)⟩

/-- C3 — amended.  The number of emitted chapters is at most (not always
equal to) the number of lines matching the numeral-start pattern; chapters
are emitted in strictly increasing order of the position of their start
markers; a body with no matching line yields the empty sequence; repeated
numerals are kept as separate entries. -/
theorem c3_chapter_counts :
    (∀ body : List Char,
        ((chapterMatches body).map chapterOfMatch).length ≤ specNumLines body)
  ∧ (∀ body : List Char, ((chapterMatches body).map CMatch.pos).Pairwise (· < ·))
  ∧ (∀ body : List Char, specNumLines body = 0 →
        (chapterMatches body).map chapterOfMatch = [])
  ∧ (chapterMatches "I. A\nI. B\n".data).map CMatch.numeral
      = ["I".data, "I".data] := by
  have ha : ∀ body : List Char,
      ((chapterMatches body).map chapterOfMatch).length ≤ specNumLines body := by
    intro body
    rw [List.length_map, specNumLines]
    have hlen : (chapterMatches body).length
        = ((chapterMatches body).map CMatch.pos).length := (List.length_map _ _).symm
    rw [hlen]
    apply length_le_count_of_pairwise (chapterScanFrom_sorted _ 0)
    intro x hx
    obtain ⟨m, hm, rfl⟩ := List.mem_map.mp hx
    obtain ⟨_, hls, hmm⟩ := chapterScanFrom_inv _ _ hm
    have hp := chapterMatchAt_some_props hmm
    obtain ⟨hmem, hpre⟩ := numeralDotAt_eq_some hp.2.1
    refine ⟨numeralDotAt_lt hp.2.1, ?_⟩
    rw [specNumeralLineB, Bool.and_eq_true]
    refine ⟨hls, ?_⟩
    rw [List.any_eq_true]
    refine ⟨m.numeral, hmem, ?_⟩
    rw [Bool.and_eq_true]
    refine ⟨hpre, ?_⟩
    obtain ⟨c, hc, hcs⟩ := wsRunFrom_pos hp.2.2.1
    rw [hc]
    simpa [Option.any] using hcs
  refine ⟨ha, ?_, ?_, by decide⟩
  · intro body
    exact chapterScanFrom_sorted _ 0
  · intro body h0
    have hb := ha body
    rw [h0] at hb
    exact List.length_eq_zero.mp (Nat.le_zero.mp hb)

/-- C3 — counterexample.  On the body `"I. A"` (a numeral-start line with no
terminating newline) one line matches the numeral-start pattern but no
chapter is emitted, so the claimed equality of counts fails. -/
theorem c3_count_counterexample :
    ¬ (((chapterMatches "I. A".data).map chapterOfMatch).length
        = specNumLines "I. A".data) := by
  decide

/-- C3 — witness for the hypothesis-bearing part of `c3_chapter_counts`, at a
body with no numeral-start line. -/
theorem c3_witness :
    (chapterMatches "hello".data).map chapterOfMatch = [] :=
  c3_chapter_counts.2.2.1 "hello".data (by decide)

/-- C4 — confirmed.  If no `<pre …> … </pre>` delimiter pair is present the
parser fails with `EnvelopeNotFound`; if the search extracts a payload that
is empty after trimming it fails with `EmptyPayload`; an error result
excludes any output document (failures are fatal, no partial output). -/
theorem c4_error_contract :
    (∀ input : List Char, specHasPairB input = false →
        process_document input = .error ParseError.EnvelopeNotFound)
  ∧ (∀ input payload : List Char, envelopeSearch input = some payload →
        pyStrip payload = [] →
        process_document input = .error ParseError.EmptyPayload)
  ∧ (∀ (input : List Char) (e : ParseError) (d : Document),
        process_document input = .error e → process_document input ≠ .ok d) := by
  refine ⟨?_, ?_, ?_⟩
  · intro input hno
    cases he : envelopeSearch input with
    | none => rw [process_document, he]
    | some p =>
      exfalso
      rw [envelopeSearch] at he
      have := envelopeSearchFrom_sound _ _ he
      rw [hno] at this
      cases this
  · intro input payload he hstrip
    rw [process_document, he]
    simp [hstrip]
  · intro input e d he
    rw [he]
    simp

/-- C4 — witness: a text with no delimiters, and a `<pre>` whose payload is
whitespace only. -/
theorem c4_witness :
    process_document "xyz".data = .error ParseError.EnvelopeNotFound
  ∧ process_document "<pre> </pre>".data = .error ParseError.EmptyPayload :=
  ⟨c4_error_contract.1 "xyz".data (by decide),
   c4_error_contract.2.1 "<pre> </pre>".data " ".data (by decide) (by decide)⟩

/-- C5 — confirmed.  The payload splits at the first occurrence of
`THE END` into trimmed body and trimmed footer; with no occurrence the whole
(trimmed) payload is the body and the footer is empty; the copyright is
everything after the first `---` of the footer, trimmed, or the whole
trimmed footer when `---` is absent.  The splitter is total (it never
fails). -/
theorem c5_document_splitter :
    (∀ p a b : List Char, p = a ++ theEndMarker ++ b →
        (∀ i, i < a.length → strPrefixAt theEndMarker p i = false) →
        mainContentOf p = pyStrip a ∧ footerOf p = pyStrip b)
  ∧ (∀ p : List Char, (∀ i, i ≤ p.length → strPrefixAt theEndMarker p i = false) →
        mainContentOf p = pyStrip p ∧ footerOf p = [])
  ∧ (∀ f a b : List Char, f = a ++ hyphenSep ++ b →
        (∀ i, i < a.length → strPrefixAt hyphenSep f i = false) →
        copyrightOf f = pyStrip b)
  ∧ (∀ f : List Char, (∀ i, i ≤ f.length → strPrefixAt hyphenSep f i = false) →
        copyrightOf f = pyStrip f) := by
  have hfirst : ∀ pat s a b : List Char, s = a ++ pat ++ b →
      (∀ i, i < a.length → strPrefixAt pat s i = false) →
      firstOccIdx pat s = some a.length := by
    intro pat s a b hs hno
    rw [firstOccIdx]
    apply firstIdxWhere_eq_some_of
    · exact Nat.zero_le _
    · subst hs
      rw [List.length_append, List.length_append]
      omega
    · rw [strPrefixAt_iff]
      subst hs
      rw [List.append_assoc, List.drop_left]
      exact ⟨b, rfl⟩
    · intro j _ hj2
      exact hno j hj2
  have hnone : ∀ pat p : List Char,
      (∀ i, i ≤ p.length → strPrefixAt pat p i = false) →
      firstOccIdx pat p = none := by
    intro pat p hno
    cases hf : firstOccIdx pat p with
    | none => rfl
    | some k =>
      exfalso
      rw [firstOccIdx] at hf
      obtain ⟨hp, _, hk, _⟩ := firstIdxWhere_eq_some _ _ _ hf
      have hfalse := hno k (by omega)
      rw [hfalse] at hp
      cases hp
  refine ⟨?_, ?_, ?_, ?_⟩
  · intro p a b hs hno
    have hf := hfirst theEndMarker p a b hs hno
    constructor
    · rw [mainContentOf, hf]
      show pyStrip (p.take a.length) = pyStrip a
      subst hs
      rw [List.append_assoc, List.take_left]
    · rw [footerOf, hf]
      show pyStrip (p.drop (a.length + theEndMarker.length)) = pyStrip b
      subst hs
      rw [← List.length_append, List.drop_left]
  · intro p hno
    have hf := hnone theEndMarker p hno
    constructor
    · rw [mainContentOf, hf]
    · rw [footerOf, hf]
  · intro f a b hs hno
    have hf := hfirst hyphenSep f a b hs hno
    rw [copyrightOf, hf]
    show pyStrip (f.drop (a.length + hyphenSep.length)) = pyStrip b
    subst hs
    rw [← List.length_append, List.drop_left]
  · intro f hno
    have hf := hnone hyphenSep f hno
    rw [copyrightOf, hf]

/-- C5 — witness: a payload with the end marker present, and the two
hyphen-separator cases on footers. -/
theorem c5_witness :
    (mainContentOf "A THE END B".data = pyStrip "A ".data
      ∧ footerOf "A THE END B".data = pyStrip " B".data)
  ∧ copyrightOf "x--- y".data = pyStrip " y".data
  ∧ copyrightOf "plain".data = pyStrip "plain".data :=
  ⟨c5_document_splitter.1 "A THE END B".data "A ".data " B".data (by decide) (by decide),
   c5_document_splitter.2.2.1 "x--- y".data "x".data " y".data (by decide) (by decide),
   c5_document_splitter.2.2.2 "plain".data (by decide)⟩

/-- C6 — confirmed.  The documented scenario: the concrete payload produces
exactly the two chapters `("I","A",["x","y"])`, `("II","B",["z"])` and the
copyright `"C 2025"`. -/
theorem c6_scenario_one :
    processFullText "I. A\n 1. x\n 2. y\n\nII. B\n 1. z\n\nTHE END\n---\nC 2025".data =
      ⟨artOfWarMeta,
       [⟨"I".data, "A".data, ["x".data, "y".data]⟩,
        ⟨"II".data, "B".data, ["z".data]⟩],
       "C 2025".data⟩ := by
  decide

/-- C7 — code bug.  The round-trip property fails on the code: the chapter
block `" 1. V\n 2. b"` (produced as the content block of the body
`"I. T\n 1. V\n 2. b"`) yields the entries `["", "b"]` because the flawed
lookahead stops the first entry at the bare `V`; re-inserting markers gives
`"1. \n2. b\n"`, on which the extractor returns `["2. b"]` — not the same
sequence (the greedy `\s+` of the first marker swallows the newline and the
second entry's marker line). -/
theorem c7_roundtrip_bug :
    (chapterMatches "I. T\n 1. V\n 2. b".data).map CMatch.contentBlock
      = [" 1. V\n 2. b".data]
  ∧ (lineFindall " 1. V\n 2. b".data).map pyStrip = [[], "b".data]
  ∧ (lineFindall (reinsertMarkers [[], "b".data])).map pyStrip = ["2. b".data]
  ∧ (["2. b".data] : List (List Char)) ≠ [[], "b".data] := by
  refine ⟨by decide, by decide, by decide, by decide⟩

/-- C8 — confirmed.  The embedded parser is a pure function of the input
string (the source reads no mutable state), so parsing the same input twice
yields structurally identical output. -/
theorem c8_parser_deterministic (input : List Char) :
    process_document input = process_document input := rfl

/-- C9 — confirmed.  Every successful parse yields a document whose `meta`
is the fixed constant record independent of the input, whose chapters carry
`chapter_number` equal to the numeral label exactly as matched at the
chapter's start position in the text (hence one of the thirteen label
strings, never a normalised integer), and whose record consists of exactly
the fields `meta`, `chapters`, `copyright`. -/
theorem c9_output_shape :
    (∀ (input : List Char) (d : Document),
        process_document input = .ok d → d.meta = artOfWarMeta)
  ∧ (∀ (input : List Char) (d : Document), process_document input = .ok d →
        ∀ c ∈ d.chapters, c.chapter_number ∈ romanNumerals)
  ∧ (∀ (body : List Char) (m : CMatch), m ∈ chapterMatches body →
        numeralDotAt body m.pos = some m.numeral)
  ∧ (∀ d : Document, d = ⟨d.meta, d.chapters, d.copyright⟩) := by
  have hok : ∀ (input : List Char) (d : Document),
      process_document input = .ok d → ∃ ft, d = processFullText ft := by
    intro input d h
    rw [process_document] at h
    split at h
    · cases h
    next payload heq =>
      split at h
      · cases h
      · injection h with h
        exact ⟨pyStrip payload, h.symm⟩
  refine ⟨?_, ?_, ?_, ?_⟩
  · intro input d h
    obtain ⟨ft, rfl⟩ := hok input d h
    rfl
  · intro input d h c hc
    obtain ⟨ft, rfl⟩ := hok input d h
    have hc2 : c ∈ (chapterMatches (mainContentOf ft)).map chapterOfMatch := hc
    obtain ⟨m, hm, rfl⟩ := List.mem_map.mp hc2
    obtain ⟨_, _, hmm⟩ := chapterScanFrom_inv _ _ hm
    have hp := chapterMatchAt_some_props hmm
    exact (numeralDotAt_eq_some hp.2.1).1
  · intro body m hm
    obtain ⟨_, _, hmm⟩ := chapterScanFrom_inv _ _ hm
    exact (chapterMatchAt_some_props hmm).2.1
  · intro d
    rfl

/-- C9 — witness at the minimal successful input `"<pre>x</pre>"`. -/
theorem c9_witness :
    (⟨artOfWarMeta, [], []⟩ : Document).meta = artOfWarMeta
  ∧ (⟨artOfWarMeta, [], []⟩ : Document)
      = ⟨(⟨artOfWarMeta, [], []⟩ : Document).meta,
         (⟨artOfWarMeta, [], []⟩ : Document).chapters,
         (⟨artOfWarMeta, [], []⟩ : Document).copyright⟩ :=
  ⟨c9_output_shape.1 "<pre>x</pre>".data ⟨artOfWarMeta, [], []⟩ (by rfl),
   c9_output_shape.2.2.2 ⟨artOfWarMeta, [], []⟩⟩

/-- C10 — confirmed.  A chapter match needs a newline after its marker
(`(.*?)\n` must find one), so a body containing no newline — in particular a
body that is exactly one numeral-start line without a terminating newline —
yields no chapters; the concrete pair contrasts the same final line with and
without the terminating newline. -/
theorem c10_final_line_needs_newline :
    (∀ body : List Char, '\n' ∉ body → chapterMatches body = [])
  ∧ chapterMatches "pad\nII. B".data = []
  ∧ chapterMatches "pad\nII. B\n".data ≠ [] := by
  refine ⟨?_, by decide, by decide⟩
  intro body h
  exact chapterScanFrom_of_no_newline h _ _

/-- C10 — witness: a body that is exactly one chapter-start line with no
terminating newline. -/
theorem c10_witness : chapterMatches "II. Title".data = [] :=
  c10_final_line_needs_newline.1 "II. Title".data (by decide)

end AOW
